import Mathlib

/-!
Verification development for the ChainMindAgent ranking-aggregation pipeline.

The definitions below are a shallow embedding of the Python scripts under
src/analysis and src/aaaa, chiefly fees_ranking_template_fill.py (whose
grouping, sorting and output logic is duplicated verbatim in
revenue_ranking_template_fill.py and, with tvl in place of fees, in
prediction_market_ranking_template_fill.py).  Numeric metric values are
modelled as rationals; JSON objects become structures with Option fields
for keys that may be absent; the Python dict grouped_data becomes an
insertion-ordered association list, matching dict iteration order.
-/

namespace ChainMind

/-- RawProtocol models one element of the protocols array returned by the
DefiLlama API, restricted to the fields read by fetch_fees_data.  The fees
field holds the value of the interval-selected column (total24h, total7d or
total30d): the grouping code is identical for every interval, so the claims
quantify over the already-selected value.  Option models an absent key. -/
structure RawProtocol where
  displayName : Option String
  name : Option String
  logo : Option String
  category : Option String
  parentProtocol : Option String
  slug : Option String
  fees : Option ℚ
  change : ℚ
deriving DecidableEq, Repr

/-- GroupedEntity models one value of the Python dict grouped_data built by
fetch_fees_data. -/
structure GroupedEntity where
  name : String
  logo : String
  category : String
  fees : ℚ
  change : ℚ
  max_fees : ℚ
deriving DecidableEq, Repr

/-- orStr models the Python expression a or b on two optional strings:
a is kept when it is truthy (present and nonempty), otherwise b is
returned as is. -/
def orStr (a b : Option String) : Option String :=
  match a with
  | some s => if s = "" then b else some s
  | none => b

/-- group_key models line 66 of fees_ranking_template_fill.py:
p.get("parentProtocol") or p.get("slug").  The result is an optional
string because both fields may be absent (Python would then use None as
the dict key). -/
def group_key (p : RawProtocol) : Option String :=
  orStr p.parentProtocol p.slug

/-- nameOf models p.get("displayName") or p.get("name", "Unknown"). -/
def nameOf (p : RawProtocol) : String :=
  match p.displayName with
  | some s => if s = "" then p.name.getD "Unknown" else s
  | none => p.name.getD "Unknown"

/-- logoOf models p.get("logo", ""). -/
def logoOf (p : RawProtocol) : String := p.logo.getD ""

/-- categoryOf models p.get("category", "N/A"). -/
def categoryOf (p : RawProtocol) : String := p.category.getD "N/A"

/-- feesVal is the metric value of a record, defaulting to 0; it is only
ever used on records whose fees field is present. -/
def feesVal (p : RawProtocol) : ℚ := p.fees.getD 0

/-- contributesB p k holds when record p passes the filter on line 64
(fees is not None and fees greater than 0) and groups under key k. -/
def contributesB (p : RawProtocol) (k : Option String) : Bool :=
  (match p.fees with
   | some f => decide (0 < f)
   | none => false) && decide (group_key p = k)

/-- contributors lists, in input order, the records that pass the
positive-fees filter and group under key k. -/
def contributors (ps : List RawProtocol) (k : Option String) : List RawProtocol :=
  ps.filter (fun p => contributesB p k)

/-- sumFees is the exact sum of the metric values of a list of records. -/
def sumFees (l : List RawProtocol) : ℚ :=
  (l.map feesVal).sum

/-- Grouped models the Python dict grouped_data as an association list in
key-insertion order (Python dicts preserve insertion order, which the code
later relies on through list(grouped_data.values())). -/
abbrev Grouped := List (Option String × GroupedEntity)

/-- lookupKey returns the entry stored under a key, like dict access. -/
def lookupKey (d : Grouped) (k : Option String) : Option GroupedEntity :=
  match d with
  | [] => none
  | (k1, e) :: rest => if k1 = k then some e else lookupKey rest k

/-- updateKey applies f to the entry stored under key k, leaving every
other entry unchanged, like an in-place dict update. -/
def updateKey (d : Grouped) (k : Option String) (f : GroupedEntity → GroupedEntity) : Grouped :=
  match d with
  | [] => []
  | (k1, e) :: rest =>
    if k1 = k then (k1, f e) :: updateKey rest k f
    else (k1, e) :: updateKey rest k f

/-- freshEntity models the dict literal on lines 69 to 77 of
fees_ranking_template_fill.py that initializes a new group. -/
def freshEntity (p : RawProtocol) : GroupedEntity :=
  { name := nameOf p
    logo := logoOf p
    category := categoryOf p
    fees := 0
    change := 0
    max_fees := -1 }

/-- applyFees models lines 79 to 88: add the fees of the record to the
running sum, then refresh the descriptive metadata when this record has
strictly larger fees than the running maximum. -/
def applyFees (f : ℚ) (p : RawProtocol) (e : GroupedEntity) : GroupedEntity :=
  let e1 : GroupedEntity := { e with fees := e.fees + f }
  if e1.max_fees < f then
    { e1 with
      max_fees := f
      name := nameOf p
      logo := logoOf p
      category := categoryOf p
      change := p.change }
  else e1

/-- foldRecord models one iteration of the loop on lines 62 to 88 of
fees_ranking_template_fill.py: skip the record unless its fees value is
present and positive, create the group on first sight, then fold the
record in. -/
def foldRecord (d : Grouped) (p : RawProtocol) : Grouped :=
  match p.fees with
  | none => d
  | some f =>
    if 0 < f then
      updateKey
        (if (lookupKey d (group_key p)).isSome then d
         else d ++ [(group_key p, freshEntity p)])
        (group_key p) (applyFees f p)
    else d

/-- grouped_data models the full grouping loop of fetch_fees_data (and
the identical loop of fetch_revenue_data). -/
def grouped_data (ps : List RawProtocol) : Grouped :=
  ps.foldl foldRecord []

/-- firstMaxBy returns the first element of the list attaining the
maximal value of f, or none on the empty list. -/
def firstMaxBy (f : α → ℚ) : List α → Option α
  | [] => none
  | a :: xs =>
    match firstMaxBy f xs with
    | none => some a
    | some y => if f a < f y then some y else some a

/-- insertDesc places x into a list sorted by key in descending order,
passing over the elements whose key is strictly larger and stopping in
front of the first element whose key is less than or equal: together with
sortDesc this is a stable descending sort, the behaviour of the Python
call valid_protocols.sort(key, reverse=True) on line 94 (Python list.sort
is guaranteed stable, and a stable sort by a key is unique). -/
def insertDesc (key : α → ℚ) (x : α) : List α → List α
  | [] => [x]
  | y :: ys => if key x < key y then y :: insertDesc key x ys else x :: y :: ys

/-- sortDesc is the stable descending sort built from insertDesc. -/
def sortDesc (key : α → ℚ) : List α → List α
  | [] => []
  | x :: xs => insertDesc key x (sortDesc key xs)

/-- valid_protocols models line 91: list(grouped_data.values()), the
grouped entities in key-insertion order. -/
def valid_protocols (ps : List RawProtocol) : List GroupedEntity :=
  (grouped_data ps).map Prod.snd

/-- top_protocols models lines 94 to 97: sort by fees descending (stable)
and take the first 10; this is the value returned by fetch_fees_data. -/
def top_protocols (ps : List RawProtocol) : List GroupedEntity :=
  (sortDesc (fun e => e.fees) (valid_protocols ps)).take 10

/-- fetch_fees_data is the pure core of the source function of the same
name: the network call is modelled by taking the decoded protocols array
as input. -/
def fetch_fees_data (ps : List RawProtocol) : List GroupedEntity :=
  top_protocols ps

/-- Column of the fixed layout template: the left column holds ranks 0 to
4, the right column ranks 5 to 9. -/
inductive Column where
  | left : Column
  | right : Column
deriving DecidableEq, Repr

/-- SlotPos is a slot of the layout template, addressed by column and row,
with the pixel x coordinate of the logo center taken from the constants
LEFT_LOGO_X = 718 and RIGHT_LOGO_X = 2473. -/
structure SlotPos where
  column : Column
  row : Nat
  centerX : ℚ
deriving DecidableEq, Repr

/-- slotOf models lines 260 to 263 of create_composite_image: entry i goes
to the left column at row i when i is below 5, otherwise to the right
column at row i minus 5. -/
def slotOf (i : Nat) : SlotPos :=
  if i < 5 then ⟨Column.left, i, 718⟩ else ⟨Column.right, i - 5, 2473⟩

/-- composeSlots models the loop on lines 257 to 288: enumerate the ranked
entries, stop silently once the index reaches 10, and place each remaining
entry into the slot computed by slotOf. -/
def composeSlots (i : Nat) : List α → List (α × SlotPos)
  | [] => []
  | x :: xs => if 10 ≤ i then [] else (x, slotOf i) :: composeSlots (i + 1) xs

/-- create_composite_slots is the placement core of create_composite_image:
the mapping from a ranked list to the list of filled slots. -/
def create_composite_slots (entries : List α) : List (α × SlotPos) :=
  composeSlots 0 entries

/-- FetchOutcome models the result of the requests.get call inside
fetch_logo_as_base64: either some exception was raised (network error,
timeout), or a response arrived with a status code, an optional
content-type header and a body (already base64 encoded in the model,
since the encoding is a total injection irrelevant to the claims). -/
inductive FetchOutcome where
  | exc : FetchOutcome
  | resp : Nat → Option String → String → FetchOutcome
deriving DecidableEq, Repr

/-- fetch_logo_as_base64 models lines 110 to 122: an empty reference short
circuits to the empty asset; an exception or a non-200 status yields the
empty asset; a 200 response is wrapped into a data URI with the
content-type header defaulted to image/png. -/
def fetch_logo_as_base64 (url : String) (outcome : FetchOutcome) : String :=
  if url = "" then ""
  else
    match outcome with
    | FetchOutcome.exc => ""
    | FetchOutcome.resp status ct b64 =>
      if status = 200 then "data:" ++ ct.getD "image/png" ++ ";base64," ++ b64
      else ""

/-- Scaled is the structured result of the number formatters: which rung
of the unit ladder was chosen and the scaled value placed before the
suffix.  The exact decimal digit rendering of the Python format strings is
abstracted away; the ladder choice and the scaled value are preserved. -/
inductive Scaled where
  | B : ℚ → Scaled
  | M : ℚ → Scaled
  | K : ℚ → Scaled
  | unit : ℚ → Scaled
  | zero : Scaled
deriving DecidableEq, Repr

/-- format_fees models lines 25 to 35 of fees_ranking_template_fill.py
(format_revenue in revenue_ranking_template_fill.py is identical): None or
0 renders as a fixed zero string, a value of at least one million is
scaled by one million with suffix M, a value of at least one thousand by
one thousand with suffix K, anything else is rendered unscaled.  There is
no branch for one billion. -/
def format_fees (value : Option ℚ) : Scaled :=
  match value with
  | none => Scaled.zero
  | some v =>
    if v = 0 then Scaled.zero
    else if 1000000 ≤ v then Scaled.M (v / 1000000)
    else if 1000 ≤ v then Scaled.K (v / 1000)
    else Scaled.unit v

/-- format_currency models lines 42 to 53 of
dune_bnbchain_template_fill.py: it has an extra rung scaling values of at
least one billion by one billion with suffix B. -/
def format_currency (value : Option ℚ) : Scaled :=
  match value with
  | none => Scaled.zero
  | some v =>
    if 1000000000 ≤ v then Scaled.B (v / 1000000000)
    else if 1000000 ≤ v then Scaled.M (v / 1000000)
    else if 1000 ≤ v then Scaled.K (v / 1000)
    else Scaled.unit v

/-- spec_ladder is written from the words of the spec, for comparison
against the formatters of the code: values at or above one billion are
abbreviated with B, at or above one million with M, at or above one
thousand with K. -/
def spec_ladder (v : ℚ) : Scaled :=
  if 1000000000 ≤ v then Scaled.B (v / 1000000000)
  else if 1000000 ≤ v then Scaled.M (v / 1000000)
  else if 1000 ≤ v then Scaled.K (v / 1000)
  else Scaled.unit v

/-- normalizeName models the name normalization used for cross-source
matching in merge_data of prediction_market_ranking_template_fill.py,
lines 163 to 164: item name lowercased with every space removed (the
Python calls are .lower() and .replace applied to the single-character
pattern consisting of one space, which removes all spaces). -/
def normalizeName (s : String) : String :=
  String.mk ((s.data.map Char.toLower).filter (fun c => c ≠ ' '))

/-- get_caption_entries is the data content of get_caption_text, lines
318 to 333: one entry per ranked protocol, at most 10, carrying the rank
position, the display name and the formatted fees value interpolated into
the fixed caption template.  The surrounding fixed text is dropped from
the model; the entries are exactly the data interpolated into it. -/
def get_caption_entries (ps : List GroupedEntity) : List (Nat × String × Scaled) :=
  (ps.take 10).enum.map (fun q => (q.1 + 1, q.2.name, format_fees (some q.2.fees)))

/-- Envelope models the JSON object printed by run_logic between the
JSON_START and JSON_END markers: either a failure object whose single
field is the error message, or a success object with the image (None in
text-only mode), the caption data, the timestamp, the interval and the
ranked data list. -/
inductive Envelope where
  | failure : String → Envelope
  | success : Option String → List (Nat × String × Scaled) → String → String → List GroupedEntity → Envelope
deriving DecidableEq, Repr

/-- run_logic models lines 335 to 375 of fees_ranking_template_fill.py in
structured-output mode (json_output true): when the fetched list is empty
the envelope carries only the error message, otherwise the fully
populated success envelope is emitted. -/
def run_logic (ps : List RawProtocol) (timestampStr : String) (interval : String) : Envelope :=
  let protocols := fetch_fees_data ps
  if protocols = [] then Envelope.failure "Failed to fetch data"
  else Envelope.success none (get_caption_entries protocols) timestampStr interval protocols

/-- keptRecord states that a record passes the filter on line 64: its
fees value is present and strictly positive. -/
def keptRecord (p : RawProtocol) : Prop :=
  ∃ f, p.fees = some f ∧ 0 < f

/-! Helper lemmas about the association-list model of the dict. -/

lemma lookupKey_append_single (d : Grouped) (k1 k : Option String) (v : GroupedEntity) :
    lookupKey (d ++ [(k1, v)]) k =
      match lookupKey d k with
      | some e => some e
      | none => if k1 = k then some v else none := by
  induction d with
  | nil => simp [lookupKey]
  | cons kv rest ih =>
    obtain ⟨k2, e2⟩ := kv
    by_cases h : k2 = k
    · simp [lookupKey, h]
    · simpa [lookupKey, h] using ih

lemma lookupKey_updateKey_same (d : Grouped) (k : Option String)
    (f : GroupedEntity → GroupedEntity) :
    lookupKey (updateKey d k f) k = (lookupKey d k).map f := by
  induction d with
  | nil => simp [lookupKey, updateKey]
  | cons kv rest ih =>
    obtain ⟨k2, e2⟩ := kv
    by_cases h : k2 = k
    · simp [lookupKey, updateKey, h]
    · simpa [lookupKey, updateKey, h] using ih

lemma lookupKey_updateKey_other (d : Grouped) (k1 k : Option String)
    (f : GroupedEntity → GroupedEntity) (hk : k1 ≠ k) :
    lookupKey (updateKey d k1 f) k = lookupKey d k := by
  induction d with
  | nil => simp [lookupKey, updateKey]
  | cons kv rest ih =>
    obtain ⟨k2, e2⟩ := kv
    by_cases h : k2 = k1
    · subst h
      simp only [updateKey, if_pos rfl, lookupKey, if_neg hk]
      exact ih
    · by_cases h2 : k2 = k
      · simp [lookupKey, updateKey, h, h2, Ne.symm hk]
      · simpa [lookupKey, updateKey, h, h2] using ih

lemma updateKey_length (d : Grouped) (k : Option String)
    (f : GroupedEntity → GroupedEntity) :
    (updateKey d k f).length = d.length := by
  induction d with
  | nil => rfl
  | cons kv rest ih =>
    obtain ⟨k2, e2⟩ := kv
    by_cases h : k2 = k <;> simp [updateKey, h, ih]

/-! Helper lemmas about firstMaxBy. -/

lemma firstMaxBy_eq_none_iff (f : α → ℚ) (l : List α) :
    firstMaxBy f l = none ↔ l = [] := by
  cases l with
  | nil => simp [firstMaxBy]
  | cons a xs =>
    simp only [firstMaxBy]
    cases firstMaxBy f xs with
    | none => simp
    | some y =>
      by_cases h : f a < f y <;> simp [h]

lemma firstMaxBy_ge (f : α → ℚ) (l : List α) (y : α)
    (hy : firstMaxBy f l = some y) : ∀ q ∈ l, f q ≤ f y := by
  induction l generalizing y with
  | nil => simp [firstMaxBy] at hy
  | cons a xs ih =>
    simp only [firstMaxBy] at hy
    split at hy
    · rename_i hmax
      injection hy with hy2
      subst hy2
      intro q hq
      rcases List.mem_cons.mp hq with h | h
      · subst h; exact le_refl _
      · rw [(firstMaxBy_eq_none_iff f xs).mp hmax] at h
        simp at h
    · rename_i z hmax
      by_cases hlt : f a < f z
      · rw [if_pos hlt] at hy
        injection hy with hy2
        subst hy2
        intro q hq
        rcases List.mem_cons.mp hq with h | h
        · subst h; exact le_of_lt hlt
        · exact ih _ hmax q h
      · rw [if_neg hlt] at hy
        injection hy with hy2
        subst hy2
        intro q hq
        rcases List.mem_cons.mp hq with h | h
        · subst h; exact le_refl _
        · exact le_trans (ih _ hmax q h) (not_lt.mp hlt)

lemma firstMaxBy_split (f : α → ℚ) (l : List α) (p : α)
    (hp : firstMaxBy f l = some p) :
    ∃ l1 l2, l = l1 ++ p :: l2 ∧ (∀ q ∈ l1, f q < f p) ∧ (∀ q ∈ l2, f q ≤ f p) := by
  induction l generalizing p with
  | nil => simp [firstMaxBy] at hp
  | cons a xs ih =>
    simp only [firstMaxBy] at hp
    split at hp
    · rename_i hmax
      injection hp with hp2
      subst hp2
      refine ⟨[], xs, by simp, by simp, ?_⟩
      rw [(firstMaxBy_eq_none_iff f xs).mp hmax]
      simp
    · rename_i z hmax
      by_cases hlt : f a < f z
      · rw [if_pos hlt] at hp
        injection hp with hp2
        subst hp2
        obtain ⟨l1, l2, hsplit, hleft, hright⟩ := ih _ hmax
        refine ⟨a :: l1, l2, by simp [hsplit], ?_, hright⟩
        intro q hq
        rcases List.mem_cons.mp hq with h | h
        · subst h; exact hlt
        · exact hleft q h
      · rw [if_neg hlt] at hp
        injection hp with hp2
        subst hp2
        refine ⟨[], xs, by simp, by simp, ?_⟩
        intro q hq
        exact le_trans (firstMaxBy_ge f xs z hmax q hq) (not_lt.mp hlt)

lemma firstMaxBy_snoc (f : α → ℚ) (l : List α) (x : α) :
    firstMaxBy f (l ++ [x]) =
      match firstMaxBy f l with
      | none => some x
      | some y => if f y < f x then some x else some y := by
  induction l with
  | nil => simp [firstMaxBy]
  | cons a xs ih =>
    rw [List.cons_append]
    rw [show firstMaxBy f (a :: (xs ++ [x])) = match firstMaxBy f (xs ++ [x]) with
        | none => some a
        | some y => if f a < f y then some y else some a from rfl]
    rw [ih]
    cases hmax : firstMaxBy f xs with
    | none => simp [firstMaxBy, hmax]
    | some z =>
      simp only [firstMaxBy, hmax]
      by_cases hzx : f z < f x <;> by_cases haz : f a < f z
      · have hax : f a < f x := lt_trans haz hzx
        simp [hzx, haz, hax]
      · simp [hzx, haz]
      · simp [hzx, haz]
      · have hax : ¬ f a < f x :=
          not_lt.mpr (le_trans (not_lt.mp hzx) (not_lt.mp haz))
        simp [hzx, haz, hax]

/-! Case equations for foldRecord and the snoc decompositions used by the
master characterization of the grouping loop. -/

lemma foldRecord_none (d : Grouped) (x : RawProtocol) (hf : x.fees = none) :
    foldRecord d x = d := by
  unfold foldRecord
  rw [hf]

lemma foldRecord_nonpos (d : Grouped) (x : RawProtocol) (f : ℚ) (hf : x.fees = some f)
    (hpos : ¬ 0 < f) : foldRecord d x = d := by
  unfold foldRecord
  rw [hf]
  simp [hpos]

lemma foldRecord_pos (d : Grouped) (x : RawProtocol) (f : ℚ) (hf : x.fees = some f)
    (hpos : 0 < f) :
    foldRecord d x =
      updateKey
        (if (lookupKey d (group_key x)).isSome then d
         else d ++ [(group_key x, freshEntity x)])
        (group_key x) (applyFees f x) := by
  unfold foldRecord
  rw [hf]
  simp [hpos]

lemma grouped_data_snoc (ps : List RawProtocol) (x : RawProtocol) :
    grouped_data (ps ++ [x]) = foldRecord (grouped_data ps) x := by
  simp [grouped_data, List.foldl_append]

lemma contributors_snoc (ps : List RawProtocol) (x : RawProtocol) (k : Option String) :
    contributors (ps ++ [x]) k =
      contributors ps k ++ (if contributesB x k then [x] else []) := by
  cases h : contributesB x k <;>
    simp [contributors, List.filter_append, h]

lemma sumFees_append (l1 l2 : List RawProtocol) :
    sumFees (l1 ++ l2) = sumFees l1 + sumFees l2 := by
  simp [sumFees]

lemma contributesB_iff (p : RawProtocol) (k : Option String) :
    contributesB p k = true ↔ (∃ f, p.fees = some f ∧ 0 < f) ∧ group_key p = k := by
  cases hf : p.fees <;> simp [contributesB, hf]

lemma lookupKey_foldRecord_other (d : Grouped) (x : RawProtocol) (k : Option String)
    (hc : contributesB x k = false) :
    lookupKey (foldRecord d x) k = lookupKey d k := by
  cases hf : x.fees with
  | none => rw [foldRecord_none d x hf]
  | some f =>
    by_cases hpos : 0 < f
    · have hk : group_key x ≠ k := by
        intro hk
        have : contributesB x k = true := (contributesB_iff x k).mpr ⟨⟨f, hf, hpos⟩, hk⟩
        rw [hc] at this
        exact Bool.false_ne_true this
      rw [foldRecord_pos d x f hf hpos,
          lookupKey_updateKey_other _ _ _ _ hk]
      by_cases hm : (lookupKey d (group_key x)).isSome
      · rw [if_pos hm]
      · rw [if_neg hm, lookupKey_append_single]
        cases hdk : lookupKey d k with
        | some e => simp
        | none => simp [hk]
    · rw [foldRecord_nonpos d x f hf hpos]

/-- Master characterization of the grouping loop of fetch_fees_data: the
entry stored under a key exists exactly when some record contributes to
that key; its fees field is the exact sum of the contributing fees, and
its descriptive metadata is that of the first contributing record
attaining the maximal fees value. -/
lemma grouped_data_lookup (ps : List RawProtocol) (k : Option String) :
    (contributors ps k = [] → lookupKey (grouped_data ps) k = none) ∧
    (∀ p, firstMaxBy feesVal (contributors ps k) = some p →
      ∃ e, lookupKey (grouped_data ps) k = some e ∧
        e.fees = sumFees (contributors ps k) ∧
        e.max_fees = feesVal p ∧ e.name = nameOf p ∧ e.logo = logoOf p ∧
        e.category = categoryOf p ∧ e.change = p.change) := by
  induction ps using List.reverseRecOn with
  | nil =>
    refine ⟨fun _ => rfl, fun p hp => ?_⟩
    simp [contributors, firstMaxBy] at hp
  | append_singleton ps x ih =>
    obtain ⟨ih1, ih2⟩ := ih
    rw [grouped_data_snoc, contributors_snoc]
    cases hc : contributesB x k with
    | false =>
      rw [if_neg (by simp [hc]), List.append_nil,
          lookupKey_foldRecord_other _ _ _ hc]
      exact ⟨ih1, ih2⟩
    | true =>
      obtain ⟨⟨f, hf, hpos⟩, hgk⟩ := (contributesB_iff x k).mp hc
      have hfv : feesVal x = f := by simp [feesVal, hf]
      rw [if_pos rfl]
      constructor
      · intro h
        simp at h
      · intro p hp
        rw [firstMaxBy_snoc] at hp
        cases hmaxC : firstMaxBy feesVal (contributors ps k) with
        | none =>
          have hcnil : contributors ps k = [] :=
            (firstMaxBy_eq_none_iff _ _).mp hmaxC
          simp only [hmaxC] at hp
          injection hp with hp2
          subst hp2
          have hnone : lookupKey (grouped_data ps) k = none := ih1 hcnil
          rw [foldRecord_pos _ x f hf hpos, hgk,
              if_neg (by rw [hnone]; simp),
              lookupKey_updateKey_same, lookupKey_append_single, hnone]
          refine ⟨applyFees f x (freshEntity x), by simp, ?_⟩
          have hmf : (-1 : ℚ) < f := by linarith
          simp [applyFees, freshEntity, hmf, hcnil, sumFees, hfv]
        | some y =>
          obtain ⟨e0, he0, he0fees, he0max, he0name, he0logo, he0cat, he0chg⟩ :=
            ih2 y hmaxC
          simp only [hmaxC] at hp
          rw [foldRecord_pos _ x f hf hpos, hgk,
              if_pos (by rw [he0]; simp),
              lookupKey_updateKey_same, he0]
          refine ⟨applyFees f x e0, by simp, ?_⟩
          rw [sumFees_append]
          by_cases hyx : feesVal y < feesVal x
          · rw [if_pos hyx] at hp
            injection hp with hp2
            subst hp2
            have hcond : ({ e0 with fees := e0.fees + f } : GroupedEntity).max_fees < f := by
              simp only [he0max] at hyx ⊢
              rw [hfv] at hyx
              exact hyx
            simp [applyFees, hcond, he0fees, sumFees, hfv]
          · rw [if_neg hyx] at hp
            injection hp with hp2
            subst hp2
            have hyx2 : ¬ feesVal y < f := by rwa [hfv] at hyx
            have hcond : ¬ ({ e0 with fees := e0.fees + f } : GroupedEntity).max_fees < f := by
              simp only [he0max]
              exact hyx2
            simp [applyFees, hcond, hyx2, he0fees, he0max, he0name, he0logo, he0cat,
              he0chg, sumFees, hfv]

/-! Lemmas about the stable descending sort and the slot compositor. -/

lemma mem_insertDesc (key : α → ℚ) (x a : α) (l : List α) :
    a ∈ insertDesc key x l ↔ a = x ∨ a ∈ l := by
  induction l with
  | nil => simp [insertDesc]
  | cons y ys ih =>
    by_cases h : key x < key y
    · simp only [insertDesc, if_pos h, List.mem_cons, ih]
      tauto
    · simp only [insertDesc, if_neg h, List.mem_cons]

lemma pairwise_insertDesc (key : α → ℚ) (x : α) (l : List α)
    (hl : List.Pairwise (fun a b => key b ≤ key a) l) :
    List.Pairwise (fun a b => key b ≤ key a) (insertDesc key x l) := by
  induction l with
  | nil => simp [insertDesc]
  | cons y ys ih =>
    rcases List.pairwise_cons.mp hl with ⟨hy, hys⟩
    by_cases h : key x < key y
    · rw [insertDesc, if_pos h]
      refine List.pairwise_cons.mpr ⟨?_, ih hys⟩
      intro b hb
      rcases (mem_insertDesc key x b ys).mp hb with rfl | hbys
      · exact le_of_lt h
      · exact hy b hbys
    · rw [insertDesc, if_neg h]
      refine List.pairwise_cons.mpr ⟨?_, hl⟩
      intro b hb
      rcases List.mem_cons.mp hb with rfl | hbys
      · exact not_lt.mp h
      · exact le_trans (hy b hbys) (not_lt.mp h)

lemma sortDesc_pairwise (key : α → ℚ) (l : List α) :
    List.Pairwise (fun a b => key b ≤ key a) (sortDesc key l) := by
  induction l with
  | nil => simp [sortDesc]
  | cons x xs ih => exact pairwise_insertDesc key x _ ih

lemma sortDesc_of_pairwise (key : α → ℚ) (l : List α)
    (hl : List.Pairwise (fun a b => key b ≤ key a) l) :
    sortDesc key l = l := by
  induction l with
  | nil => rfl
  | cons x xs ih =>
    rcases List.pairwise_cons.mp hl with ⟨hx, hxs⟩
    rw [sortDesc, ih hxs]
    cases xs with
    | nil => rfl
    | cons y ys =>
      have hxy : ¬ key x < key y := not_lt.mpr (hx y (by simp))
      rw [insertDesc, if_neg hxy]

lemma composeSlots_get? (l : List α) (i j : Nat) :
    (composeSlots i l).get? j =
      if i + j < 10 then (l.get? j).map (fun e => (e, slotOf (i + j))) else none := by
  induction l generalizing i j with
  | nil => simp [composeSlots]
  | cons x xs ih =>
    by_cases h10 : 10 ≤ i
    · rw [composeSlots, if_pos h10]
      have hij : ¬ i + j < 10 := by omega
      simp [hij]
    · rw [composeSlots, if_neg h10]
      cases j with
      | zero =>
        have hij : i + 0 < 10 := by omega
        have hij2 : i < 10 := by omega
        simp [hij, hij2]
      | succ j =>
        have harith : i + 1 + j = i + (j + 1) := by omega
        simp only [List.get?_cons_succ, ih, harith]

lemma composeSlots_length (l : List α) (i : Nat) :
    (composeSlots i l).length = min l.length (10 - i) := by
  induction l generalizing i with
  | nil => simp [composeSlots]
  | cons x xs ih =>
    by_cases h10 : 10 ≤ i
    · rw [composeSlots, if_pos h10]
      simp
      omega
    · rw [composeSlots, if_neg h10]
      simp [ih]
      omega

lemma contributors_ne_nil_of_lookup (ps : List RawProtocol) (k : Option String)
    (e : GroupedEntity) (he : lookupKey (grouped_data ps) k = some e) :
    contributors ps k ≠ [] := by
  intro hnil
  rw [(grouped_data_lookup ps k).1 hnil] at he
  exact Option.noConfusion he

lemma firstMaxBy_exists_of_ne_nil (f : α → ℚ) (l : List α) (hne : l ≠ []) :
    ∃ p, firstMaxBy f l = some p := by
  cases hfm : firstMaxBy f l with
  | none => exact absurd ((firstMaxBy_eq_none_iff _ _).mp hfm) hne
  | some p => exact ⟨p, rfl⟩

lemma foldRecord_length (d : Grouped) (x : RawProtocol) (f : ℚ)
    (hf : x.fees = some f) (hpos : 0 < f) :
    (foldRecord d x).length =
      d.length + (if (lookupKey d (group_key x)).isSome then 0 else 1) := by
  rw [foldRecord_pos d x f hf hpos, updateKey_length]
  by_cases hm : (lookupKey d (group_key x)).isSome
  · simp [hm]
  · simp [hm]

/-! Claim theorems. -/

/-- C1: for every input sequence of raw protocol records (the grouping
code is identical for every interval), the merged value of the additive
fees metric for an identity key equals the exact sum of the fees of all
contributing records sharing that key, and this merged value is the same
for every permutation of the input sequence. -/
theorem merged_fees_eq_sum_and_perm_invariant
    (ps qs : List RawProtocol) (hperm : ps.Perm qs) (k : Option String)
    (e : GroupedEntity) (he : lookupKey (grouped_data ps) k = some e) :
    e.fees = sumFees (contributors ps k) ∧
    ∃ e2, lookupKey (grouped_data qs) k = some e2 ∧ e2.fees = e.fees := by
  have hpermc : (contributors ps k).Perm (contributors qs k) := hperm.filter _
  have hne : contributors ps k ≠ [] :=
    contributors_ne_nil_of_lookup ps k e he
  obtain ⟨p, hp⟩ := firstMaxBy_exists_of_ne_nil feesVal _ hne
  obtain ⟨e1, he1, he1fees, -⟩ := (grouped_data_lookup ps k).2 p hp
  rw [he] at he1
  injection he1 with he1
  subst he1
  refine ⟨he1fees, ?_⟩
  have hne2 : contributors qs k ≠ [] := by
    intro hnil2
    exact hne ((hnil2 ▸ hpermc).eq_nil)
  obtain ⟨p2, hp2⟩ := firstMaxBy_exists_of_ne_nil feesVal _ hne2
  obtain ⟨e2, he2, he2fees, -⟩ := (grouped_data_lookup qs k).2 p2 hp2
  refine ⟨e2, he2, ?_⟩
  rw [he2fees, he1fees, sumFees, sumFees, (hpermc.map feesVal).sum_eq]

/-- C1 witness: the spec end-to-end example with three records, two under
identity key A (values 100 and 50) and one under B (value 80); the merged
A entity has fees 150 and the same value is found after reversing the
input order. -/
theorem merged_fees_witness :
    lookupKey
        (grouped_data
          [⟨some "Alpha One", some "a1", some "l1", some "Dexs", some "A", some "a1s", some 100, 1⟩,
           ⟨some "Alpha Two", some "a2", some "l2", some "Lending", some "A", some "a2s", some 50, 2⟩,
           ⟨some "Beta", some "b", some "l3", some "CDP", some "B", some "bs", some 80, 3⟩])
        (some "A") = some ⟨"Alpha One", "l1", "Dexs", 150, 1, 100⟩ ∧
    ((⟨"Alpha One", "l1", "Dexs", 150, 1, 100⟩ : GroupedEntity).fees =
        sumFees
          (contributors
            [⟨some "Alpha One", some "a1", some "l1", some "Dexs", some "A", some "a1s", some 100, 1⟩,
             ⟨some "Alpha Two", some "a2", some "l2", some "Lending", some "A", some "a2s", some 50, 2⟩,
             ⟨some "Beta", some "b", some "l3", some "CDP", some "B", some "bs", some 80, 3⟩]
            (some "A")) ∧
      ∃ e2,
        lookupKey
            (grouped_data
              [⟨some "Beta", some "b", some "l3", some "CDP", some "B", some "bs", some 80, 3⟩,
               ⟨some "Alpha Two", some "a2", some "l2", some "Lending", some "A", some "a2s", some 50, 2⟩,
               ⟨some "Alpha One", some "a1", some "l1", some "Dexs", some "A", some "a1s", some 100, 1⟩])
            (some "A") = some e2 ∧
          e2.fees = (⟨"Alpha One", "l1", "Dexs", 150, 1, 100⟩ : GroupedEntity).fees) :=
  ⟨by norm_num +decide [grouped_data, foldRecord, applyFees, freshEntity, lookupKey, updateKey,
      group_key, orStr, nameOf, logoOf, categoryOf, feesVal, List.foldl],
   merged_fees_eq_sum_and_perm_invariant
     [⟨some "Alpha One", some "a1", some "l1", some "Dexs", some "A", some "a1s", some 100, 1⟩,
      ⟨some "Alpha Two", some "a2", some "l2", some "Lending", some "A", some "a2s", some 50, 2⟩,
      ⟨some "Beta", some "b", some "l3", some "CDP", some "B", some "bs", some 80, 3⟩]
     [⟨some "Beta", some "b", some "l3", some "CDP", some "B", some "bs", some 80, 3⟩,
      ⟨some "Alpha Two", some "a2", some "l2", some "Lending", some "A", some "a2s", some 50, 2⟩,
      ⟨some "Alpha One", some "a1", some "l1", some "Dexs", some "A", some "a1s", some 100, 1⟩]
     (by decide) (some "A") ⟨"Alpha One", "l1", "Dexs", 150, 1, 100⟩
     (by norm_num +decide [grouped_data, foldRecord, applyFees, freshEntity, lookupKey, updateKey,
      group_key, orStr, nameOf, logoOf, categoryOf, feesVal, List.foldl])⟩

/-- C2: for every merged entity the descriptive attributes (name, logo,
category) equal those of the contributing record with the largest fees
value, the first such record on ties, never merely the last record folded
in: the contributing records split as l1 before the chosen record (all
with strictly smaller fees) and l2 after it (all with smaller or equal
fees). -/
theorem merged_metadata_from_first_max
    (ps : List RawProtocol) (k : Option String) (e : GroupedEntity)
    (he : lookupKey (grouped_data ps) k = some e) :
    ∃ l1 p l2, contributors ps k = l1 ++ p :: l2 ∧
      (∀ q ∈ l1, feesVal q < feesVal p) ∧
      (∀ q ∈ l2, feesVal q ≤ feesVal p) ∧
      e.name = nameOf p ∧ e.logo = logoOf p ∧ e.category = categoryOf p ∧
      e.max_fees = feesVal p := by
  have hne : contributors ps k ≠ [] :=
    contributors_ne_nil_of_lookup ps k e he
  obtain ⟨p, hp⟩ := firstMaxBy_exists_of_ne_nil feesVal _ hne
  obtain ⟨e1, he1, -, hmax, hname, hlogo, hcat, -⟩ := (grouped_data_lookup ps k).2 p hp
  rw [he] at he1
  injection he1 with he1
  subst he1
  obtain ⟨l1, l2, hsplit, hleft, hright⟩ := firstMaxBy_split feesVal _ p hp
  exact ⟨l1, p, l2, hsplit, hleft, hright, hname, hlogo, hcat, hmax⟩

/-- C2 witness: two records under the same key with tied fees 100; the
merged metadata is that of the first record (First), not the last. -/
theorem merged_metadata_witness :
    lookupKey
        (grouped_data
          [⟨some "First", some "f", some "lf", some "Dexs", some "A", some "fs", some 100, 1⟩,
           ⟨some "Second", some "s", some "ls", some "CDP", some "A", some "ss", some 100, 2⟩])
        (some "A") = some ⟨"First", "lf", "Dexs", 200, 1, 100⟩ ∧
    (∃ l1 p l2,
      contributors
          [⟨some "First", some "f", some "lf", some "Dexs", some "A", some "fs", some 100, 1⟩,
           ⟨some "Second", some "s", some "ls", some "CDP", some "A", some "ss", some 100, 2⟩]
          (some "A") = l1 ++ p :: l2 ∧
      (∀ q ∈ l1, feesVal q < feesVal p) ∧
      (∀ q ∈ l2, feesVal q ≤ feesVal p) ∧
      (⟨"First", "lf", "Dexs", 200, 1, 100⟩ : GroupedEntity).name = nameOf p ∧
      (⟨"First", "lf", "Dexs", 200, 1, 100⟩ : GroupedEntity).logo = logoOf p ∧
      (⟨"First", "lf", "Dexs", 200, 1, 100⟩ : GroupedEntity).category = categoryOf p ∧
      (⟨"First", "lf", "Dexs", 200, 1, 100⟩ : GroupedEntity).max_fees = feesVal p) :=
  ⟨by norm_num +decide [grouped_data, foldRecord, applyFees, freshEntity, lookupKey, updateKey,
      group_key, orStr, nameOf, logoOf, categoryOf, feesVal, List.foldl],
   merged_metadata_from_first_max
     [⟨some "First", some "f", some "lf", some "Dexs", some "A", some "fs", some 100, 1⟩,
      ⟨some "Second", some "s", some "ls", some "CDP", some "A", some "ss", some 100, 2⟩]
     (some "A") ⟨"First", "lf", "Dexs", 200, 1, 100⟩
     (by norm_num +decide [grouped_data, foldRecord, applyFees, freshEntity, lookupKey, updateKey,
      group_key, orStr, nameOf, logoOf, categoryOf, feesVal, List.foldl])⟩

/-- C5: a record whose fees value is absent contributes nothing: both the
grouped map and the ranked output are unchanged by deleting it from the
input, at any position. -/
theorem missing_metric_excluded (ps1 ps2 : List RawProtocol) (p : RawProtocol)
    (h : p.fees = none) :
    grouped_data (ps1 ++ p :: ps2) = grouped_data (ps1 ++ ps2) ∧
    fetch_fees_data (ps1 ++ p :: ps2) = fetch_fees_data (ps1 ++ ps2) := by
  have hg : grouped_data (ps1 ++ p :: ps2) = grouped_data (ps1 ++ ps2) := by
    rw [grouped_data, grouped_data, List.foldl_append, List.foldl_append,
        List.foldl_cons, foldRecord_none _ _ h]
  exact ⟨hg, by rw [fetch_fees_data, fetch_fees_data, top_protocols, top_protocols,
    valid_protocols, valid_protocols, hg]⟩

/-- C5 witness: dropping a record with absent fees from a concrete input
leaves both outputs unchanged. -/
theorem missing_metric_witness :
    (⟨some "NoFees", none, none, none, some "N", none, none, 0⟩ : RawProtocol).fees = none ∧
    (grouped_data
        ([⟨some "Alpha", some "a", some "l", some "Dexs", some "A", some "as", some 10, 0⟩] ++
          ⟨some "NoFees", none, none, none, some "N", none, none, 0⟩ :: []) =
      grouped_data
        ([⟨some "Alpha", some "a", some "l", some "Dexs", some "A", some "as", some 10, 0⟩] ++ []) ∧
     fetch_fees_data
        ([⟨some "Alpha", some "a", some "l", some "Dexs", some "A", some "as", some 10, 0⟩] ++
          ⟨some "NoFees", none, none, none, some "N", none, none, 0⟩ :: []) =
      fetch_fees_data
        ([⟨some "Alpha", some "a", some "l", some "Dexs", some "A", some "as", some 10, 0⟩] ++ [])) :=
  ⟨rfl,
   missing_metric_excluded
     [⟨some "Alpha", some "a", some "l", some "Dexs", some "A", some "as", some 10, 0⟩] []
     ⟨some "NoFees", none, none, none, some "N", none, none, 0⟩ rfl⟩

/-- C10: every entity in the merged output has strictly positive fees,
and a record whose fees value is zero or negative is excluded from the
merge exactly like an absent one, so a zero report is indistinguishable
from no report in the output. -/
theorem merged_entities_positive (ps : List RawProtocol) (k : Option String)
    (e : GroupedEntity) (p : RawProtocol) (f : ℚ)
    (he : lookupKey (grouped_data ps) k = some e)
    (hp : p.fees = some f) (hf : f ≤ 0) :
    0 < e.fees ∧
    ∀ ps1 ps2, grouped_data (ps1 ++ p :: ps2) = grouped_data (ps1 ++ ps2) := by
  constructor
  · have hne : contributors ps k ≠ [] :=
      contributors_ne_nil_of_lookup ps k e he
    obtain ⟨q, hq⟩ := firstMaxBy_exists_of_ne_nil feesVal _ hne
    obtain ⟨e1, he1, hfees, -⟩ := (grouped_data_lookup ps k).2 q hq
    rw [he] at he1
    injection he1 with he1
    subst he1
    rw [hfees, sumFees]
    apply List.sum_pos
    · intro x hx
      obtain ⟨r, hr, hrx⟩ := List.mem_map.mp hx
      rw [contributors] at hr
      have hc := List.of_mem_filter hr
      obtain ⟨⟨g, hg, hgpos⟩, -⟩ := (contributesB_iff r k).mp hc
      rw [← hrx]
      simpa [feesVal, hg] using hgpos
    · simp [hne]
  · intro ps1 ps2
    rw [grouped_data, grouped_data, List.foldl_append, List.foldl_append,
        List.foldl_cons, foldRecord_nonpos _ p f hp (not_lt.mpr hf)]

/-- C10 witness: a concrete merged entity has positive fees, and a
zero-fees record is dropped from the merge. -/
theorem merged_entities_positive_witness :
    lookupKey
        (grouped_data
          [⟨some "Alpha", some "a", some "l", some "Dexs", some "A", some "as", some 10, 0⟩])
        (some "A") = some ⟨"Alpha", "l", "Dexs", 10, 0, 10⟩ ∧
    (⟨some "ZeroFees", none, none, none, some "Z", none, some 0, 0⟩ : RawProtocol).fees = some 0 ∧
    (0 < (⟨"Alpha", "l", "Dexs", 10, 0, 10⟩ : GroupedEntity).fees ∧
      ∀ ps1 ps2,
        grouped_data (ps1 ++ ⟨some "ZeroFees", none, none, none, some "Z", none, some 0, 0⟩ :: ps2) =
          grouped_data (ps1 ++ ps2)) :=
  ⟨by norm_num +decide [grouped_data, foldRecord, applyFees, freshEntity, lookupKey, updateKey,
      group_key, orStr, nameOf, logoOf, categoryOf, feesVal, List.foldl], rfl,
   merged_entities_positive
     [⟨some "Alpha", some "a", some "l", some "Dexs", some "A", some "as", some 10, 0⟩]
     (some "A") ⟨"Alpha", "l", "Dexs", 10, 0, 10⟩
     ⟨some "ZeroFees", none, none, none, some "Z", none, some 0, 0⟩ 0
     (by norm_num +decide [grouped_data, foldRecord, applyFees, freshEntity, lookupKey, updateKey,
      group_key, orStr, nameOf, logoOf, categoryOf, feesVal, List.foldl]) rfl le_rfl⟩

/-- C3 counterexample: two merged entities with tied fees 5 whose names
are Zeta (inserted first) and Alpha; the ranker emits Zeta before Alpha,
so the output is not sorted with ties broken by ascending display name:
the sort key is the metric alone and ties keep insertion order. -/
theorem ranker_tiebreak_counterexample :
    (top_protocols
        [⟨some "Zeta", none, none, none, none, some "b", some 5, 0⟩,
         ⟨some "Alpha", none, none, none, none, some "a", some 5, 0⟩]).map
        (fun e => e.name) = ["Zeta", "Alpha"] ∧
    ¬ List.Pairwise
        (fun a b : GroupedEntity => b.fees < a.fees ∨ (a.fees = b.fees ∧ ¬ b.name.data < a.name.data))
        (top_protocols
          [⟨some "Zeta", none, none, none, none, some "b", some 5, 0⟩,
           ⟨some "Alpha", none, none, none, none, some "a", some 5, 0⟩]) := by
  have heval :
      top_protocols
        [⟨some "Zeta", none, none, none, none, some "b", some 5, 0⟩,
         ⟨some "Alpha", none, none, none, none, some "a", some 5, 0⟩] =
      [⟨"Zeta", "", "N/A", 5, 0, 5⟩, ⟨"Alpha", "", "N/A", 5, 0, 5⟩] := by
    norm_num +decide [top_protocols, valid_protocols, grouped_data, foldRecord, applyFees,
      freshEntity, lookupKey, updateKey, group_key, orStr, nameOf, logoOf, categoryOf,
      feesVal, List.foldl, sortDesc, insertDesc]
  rw [heval]
  refine ⟨rfl, ?_⟩
  intro hpw
  rcases List.pairwise_cons.mp hpw with ⟨hhead, -⟩
  rcases hhead _ (List.mem_singleton.mpr rfl) with h | ⟨-, h⟩
  · simp at h
  · exact h (by decide)

/-- C3 amended: the ranked output has length at most 10 and is sorted in
descending order of the fees metric; re-sorting the output with the same
stable descending sort is a no-op.  Ties are kept in key-insertion order
(Python list.sort is stable); there is no name tie-break in the code. -/
theorem ranker_sorted_desc_bounded (ps : List RawProtocol) :
    (fetch_fees_data ps).length ≤ 10 ∧
    List.Pairwise (fun a b : GroupedEntity => b.fees ≤ a.fees) (fetch_fees_data ps) ∧
    sortDesc (fun e => e.fees) (fetch_fees_data ps) = fetch_fees_data ps := by
  have hsorted : List.Pairwise (fun a b : GroupedEntity => b.fees ≤ a.fees)
      ((sortDesc (fun e => e.fees) (valid_protocols ps)).take 10) :=
    List.Pairwise.sublist (List.take_sublist 10 _) (sortDesc_pairwise _ _)
  refine ⟨?_, hsorted, sortDesc_of_pairwise _ _ hsorted⟩
  rw [fetch_fees_data, top_protocols]
  exact List.length_take_le 10 _

/-- C4 counterexample: two records with no parentProtocol whose display
names agree after case folding and space removal but whose slugs differ
produce two distinct merged entities, not one: the grouping fallback is
the source slug, not a normalized display name. -/
theorem identity_key_counterexample :
    normalizeName "Pancake Swap" = normalizeName "pancakeswap" ∧
    group_key ⟨some "Pancake Swap", none, none, none, none, some "pancake-swap-v2", some 5, 0⟩ ≠
      group_key ⟨some "pancakeswap", none, none, none, none, some "pancakeswap-amm", some 3, 0⟩ ∧
    (grouped_data
        [⟨some "Pancake Swap", none, none, none, none, some "pancake-swap-v2", some 5, 0⟩,
         ⟨some "pancakeswap", none, none, none, none, some "pancakeswap-amm", some 3, 0⟩]).length = 2 := by
  refine ⟨by decide, by decide, ?_⟩
  norm_num +decide [grouped_data, foldRecord, applyFees, freshEntity, lookupKey, updateKey,
    group_key, orStr, nameOf, logoOf, categoryOf, feesVal, List.foldl]

/-- C4 amended: the identity key is the explicit parentProtocol when
present and nonempty, and otherwise the source slug; two kept records
merge into one entity exactly when their identity keys coincide (so
records with equal normalized display names but different slugs stay
separate; the normalized-name matching of merge_data is a separate
cross-source join, not the grouping key). -/
theorem identity_key_two_tier (r1 r2 : RawProtocol)
    (h1 : keptRecord r1) (h2 : keptRecord r2) :
    (∀ s, r1.parentProtocol = some s → s ≠ "" → group_key r1 = some s) ∧
    (r1.parentProtocol = none → group_key r1 = r1.slug) ∧
    (grouped_data [r1, r2]).length = (if group_key r1 = group_key r2 then 1 else 2) := by
  obtain ⟨f1, hf1, hp1⟩ := h1
  obtain ⟨f2, hf2, hp2⟩ := h2
  refine ⟨?_, ?_, ?_⟩
  · intro s hs hne
    simp [group_key, orStr, hs, hne]
  · intro hs
    simp [group_key, orStr, hs]
  · have h3 : foldRecord [] r1 = [(group_key r1, applyFees f1 r1 (freshEntity r1))] := by
      rw [foldRecord_pos [] r1 f1 hf1 hp1]
      simp [lookupKey, updateKey]
    have e1 : grouped_data [r1, r2] = foldRecord (foldRecord [] r1) r2 := rfl
    rw [e1, foldRecord_length _ r2 f2 hf2 hp2, h3]
    by_cases hk : group_key r1 = group_key r2
    · simp [lookupKey, hk]
    · simp [lookupKey, hk]

/-- C4 amended witness: two kept records under the same explicit parent
key A merge into one entity; the parent key is preferred over the slug. -/
theorem identity_key_two_tier_witness :
    keptRecord ⟨some "P1", none, none, none, some "A", some "s1", some 7, 0⟩ ∧
    ((∀ s,
        (⟨some "P1", none, none, none, some "A", some "s1", some 7, 0⟩ : RawProtocol).parentProtocol =
            some s → s ≠ "" →
          group_key ⟨some "P1", none, none, none, some "A", some "s1", some 7, 0⟩ = some s) ∧
      ((⟨some "P1", none, none, none, some "A", some "s1", some 7, 0⟩ : RawProtocol).parentProtocol =
          none →
        group_key ⟨some "P1", none, none, none, some "A", some "s1", some 7, 0⟩ =
          (⟨some "P1", none, none, none, some "A", some "s1", some 7, 0⟩ : RawProtocol).slug) ∧
      (grouped_data
          [⟨some "P1", none, none, none, some "A", some "s1", some 7, 0⟩,
           ⟨some "P2", none, none, none, some "A", some "s2", some 3, 0⟩]).length =
        (if group_key ⟨some "P1", none, none, none, some "A", some "s1", some 7, 0⟩ =
              group_key ⟨some "P2", none, none, none, some "A", some "s2", some 3, 0⟩
          then 1 else 2)) :=
  ⟨⟨7, rfl, by norm_num⟩,
   identity_key_two_tier
     ⟨some "P1", none, none, none, some "A", some "s1", some 7, 0⟩
     ⟨some "P2", none, none, none, some "A", some "s2", some 3, 0⟩
     ⟨7, rfl, by norm_num⟩ ⟨3, rfl, by norm_num⟩⟩

/-- C6: the compositor fills exactly the first min(length, 10) slots and
for every index i below 10 places entry i in the left column at row i
when i is below 5 and in the right column at row i minus 5 otherwise
(with the measured center x coordinates 718 and 2473); every entry at
position 10 or beyond is dropped silently, the placement being a total
function. -/
theorem compositor_slots_and_drop (entries : List GroupedEntity) (i : Nat) :
    (create_composite_slots entries).length = min entries.length 10 ∧
    (create_composite_slots entries).get? i =
      (if i < 10 then
        (entries.get? i).map
          (fun e => (e, if i < 5 then SlotPos.mk Column.left i 718
                        else SlotPos.mk Column.right (i - 5) 2473))
       else none) := by
  constructor
  · rw [create_composite_slots, composeSlots_length]
  · rw [create_composite_slots, composeSlots_get?]
    simp [slotOf]

/-- C7: the asset resolver is a total function returning either the
empty asset or a data URI built from a status-200 response; it never
raises to its caller (exceptions and non-success statuses map to the
empty asset, including the empty reference).  The caption entries are a
function of names and fees only: damaging every logo reference leaves
the caption data unchanged. -/
theorem asset_resolver_never_fails (url : String) (outcome : FetchOutcome)
    (ps : List GroupedEntity) (damage : String → String) :
    (fetch_logo_as_base64 url outcome = "" ∨
      ∃ ct b64, outcome = FetchOutcome.resp 200 ct b64 ∧
        fetch_logo_as_base64 url outcome =
          "data:" ++ ct.getD "image/png" ++ ";base64," ++ b64) ∧
    get_caption_entries (ps.map (fun e => { e with logo := damage e.logo })) =
      get_caption_entries ps := by
  constructor
  · by_cases hu : url = ""
    · left
      simp [fetch_logo_as_base64, hu]
    · cases outcome with
      | exc =>
        left
        simp [fetch_logo_as_base64, hu]
      | resp status ct b64 =>
        by_cases hs : status = 200
        · right
          exact ⟨ct, b64, by rw [hs], by simp [fetch_logo_as_base64, hu, hs]⟩
        · left
          simp [fetch_logo_as_base64, hu, hs]
  · rw [get_caption_entries, get_caption_entries, ← List.map_take, List.enum_map,
      List.map_map]
    rfl

/-- C8: in structured-output mode, when the upstream fetch yields no
usable data the emitted envelope is the failure envelope carrying only
the error message; moreover every emitted envelope is either that
failure envelope or a fully populated success envelope, never a
half-filled one. -/
theorem failure_envelope_error_only (ps : List RawProtocol) (ts itv : String)
    (h : fetch_fees_data ps = []) :
    run_logic ps ts itv = Envelope.failure "Failed to fetch data" ∧
    ∀ qs : List RawProtocol,
      (∃ m, run_logic qs ts itv = Envelope.failure m) ∨
      (∃ d, d ≠ [] ∧
        run_logic qs ts itv = Envelope.success none (get_caption_entries d) ts itv d) := by
  constructor
  · simp [run_logic, h]
  · intro qs
    by_cases hq : fetch_fees_data qs = []
    · exact Or.inl ⟨"Failed to fetch data", by simp [run_logic, hq]⟩
    · exact Or.inr ⟨fetch_fees_data qs, hq, by simp [run_logic, hq]⟩

/-- C8 witness: the empty upstream input yields the error-only failure
envelope. -/
theorem failure_envelope_witness :
    fetch_fees_data ([] : List RawProtocol) = [] ∧
    (run_logic [] "2025-01-01T00:00:00" "24h" = Envelope.failure "Failed to fetch data" ∧
      ∀ qs : List RawProtocol,
        (∃ m, run_logic qs "2025-01-01T00:00:00" "24h" = Envelope.failure m) ∨
        (∃ d, d ≠ [] ∧
          run_logic qs "2025-01-01T00:00:00" "24h" =
            Envelope.success none (get_caption_entries d) "2025-01-01T00:00:00" "24h" d)) :=
  ⟨rfl, failure_envelope_error_only [] "2025-01-01T00:00:00" "24h" rfl⟩

/-- C9 counterexample: at two billion the fees formatter emits the
M rung with scaled value 2000 where the claimed uniform ladder (and the
format_currency implementation) emits the B rung with scaled value 2:
format_fees and format_revenue have no billion rung, so the ladder is
not applied consistently across all numeric output. -/
theorem unit_ladder_counterexample :
    format_fees (some 2000000000) = Scaled.M 2000 ∧
    spec_ladder 2000000000 = Scaled.B 2 ∧
    format_fees (some 2000000000) ≠ spec_ladder 2000000000 ∧
    format_fees (some 2000000000) ≠ format_currency (some 2000000000) := by
  have h1 : format_fees (some 2000000000) = Scaled.M 2000 := by
    norm_num [format_fees]
  have h2 : spec_ladder 2000000000 = Scaled.B 2 := by
    norm_num [spec_ladder]
  have h3 : format_currency (some 2000000000) = Scaled.B 2 := by
    norm_num [format_currency]
  refine ⟨h1, h2, ?_, ?_⟩
  · rw [h1, h2]
    intro h
    exact Scaled.noConfusion h
  · rw [h1, h3]
    intro h
    exact Scaled.noConfusion h

/-- C9 amended: format_currency follows the full ladder with a billion
rung, while format_fees (and the identical format_revenue) tops out at
the million rung: every value at or above one billion is scaled by one
billion with suffix B by the former and by one million with suffix M by
the latter. -/
theorem unit_ladder_amended (v : ℚ) (hv : 1000000000 ≤ v) :
    format_currency (some v) = Scaled.B (v / 1000000000) ∧
    format_fees (some v) = Scaled.M (v / 1000000) := by
  have h6 : (1000000 : ℚ) ≤ v := by linarith
  have hvpos : (0 : ℚ) < v := by linarith
  have h0 : v ≠ 0 := ne_of_gt hvpos
  constructor
  · simp [format_currency, hv]
  · simp [format_fees, h0, h6]

/-- C9 amended witness: the amended ladder statement evaluated at two
billion. -/
theorem unit_ladder_amended_witness :
    (1000000000 : ℚ) ≤ 2000000000 ∧
    (format_currency (some 2000000000) = Scaled.B ((2000000000 : ℚ) / 1000000000) ∧
      format_fees (some 2000000000) = Scaled.M ((2000000000 : ℚ) / 1000000)) :=
  ⟨by norm_num, unit_ladder_amended 2000000000 (by norm_num)⟩

end ChainMind
